import Mathlib

/-!
Verification of the array-variable memory subsystem of a BASIC interpreter
(`pcbasic/basic/arrays.py`, class `Arrays`).

The Python class keeps four dictionaries with identical key sets
(`_dims`, `_buffers`, `_cache`, `_array_memory`); here they are merged into a
single insertion-ordered association list of `ArrayEntry` records.  Machine
bytes are `Nat` values (0..255); Python integers are `Int`; external
collaborators (the memory-budget authority, the value subsystem and the scalar
name encoder) are fields of an `Env` record, since their code lives outside
this subsystem.
-/

namespace PcBasic

/-- Error kinds raised by the subsystem (`error.RunError` codes). -/
inductive Err where
  /-- `error.IFC`: illegal function call (negative dimension or index,
  erase of an undefined array). -/
  | ifc
  /-- `error.DUPLICATE_DEFINITION`. -/
  | duplicateDefinition
  /-- `error.SUBSCRIPT_OUT_OF_RANGE`. -/
  | subscriptOutOfRange
  /-- `error.OUT_OF_MEMORY`. -/
  | outOfMemory
  deriving Repr, DecidableEq

/-- One declared array: the fields that the four parallel dictionaries of the
source (`_dims`, `_buffers`, `_cache`, `_array_memory`) hold for one name. -/
structure ArrayEntry where
  name : String
  /-- `_dims[name]`: maximum index number per axis. -/
  dims : List Int
  /-- `_buffers[name]`: the packed element bytes. -/
  buf : List Nat
  /-- `_cache[name]`: opaque sprite-cache slot. -/
  cache : Option Nat
  /-- `_array_memory[name][0]`: header address inside the arena. -/
  namePtr : Int
  /-- `_array_memory[name][1]`: data address inside the arena. -/
  arrayPtr : Int
  deriving Repr, DecidableEq

/-- Mutable state of the `Arrays` object. -/
structure ArraysState where
  entries : List ArrayEntry
  /-- total bytes consumed in the arena. -/
  current : Int
  /-- `_base`: OPTION BASE, `none` when unset. -/
  base : Option Int
  deriving Repr, DecidableEq

/-- External collaborators of the subsystem. -/
structure Env where
  /-- `values.size_bytes(name)`: element byte width by type sigil. -/
  sizeBytes : String → Nat
  /-- `memory.check_free(n, err)`: does the budget admit `n` more bytes? -/
  checkFree : Int → Bool
  /-- `memory.var_current()`: absolute base address of the array area. -/
  varCurrent : Int
  /-- `scalars.get_name_in_memory(name, offset)`: byte of the name encoding. -/
  getNameInMemory : String → Int → Nat
  /-- `values.to_type(sigil, value).to_bytes()`: canonical byte encoding. -/
  toTypeBytes : Char → List Nat → List Nat

/-- `self._base` as used in arithmetic: a resolved base, 0 when unset
(the unset case is unreachable whenever arrays exist). -/
def baseVal (s : ArraysState) : Int := s.base.getD 0

/-- Python `_dims`-style lookup: first entry with the given name. -/
def findEntry (s : ArraysState) (name : String) : Option ArrayEntry :=
  s.entries.find? (fun e => e.name == name)

/-- `self._buffers[name]`, defaulting to `[]` for a missing name. -/
def bufOf (s : ArraysState) (name : String) : List Nat :=
  ((findEntry s name).map (·.buf)).getD []

/-- `self._dims[name]`, defaulting to `[]` for a missing name. -/
def dimsOf (s : ArraysState) (name : String) : List Int :=
  ((findEntry s name).map (·.dims)).getD []

/-! ### The indexer (`Arrays.index`, `Arrays.array_len`) -/

/-- The loop of `Arrays.index`:
`bigindex += area * (index[i] - base); area *= dimensions[i] + 1 - base`. -/
def indexLoop (b : Int) : List (Int × Int) → Int → Int → Int
  | [], big, _ => big
  | p :: rest, big, area => indexLoop b rest (big + area * (p.1 - b)) (area * (p.2 + 1 - b))

/-- `Arrays.index(index, dimensions)`: flat offset of a dimensioned index.
The source loops over `range(len(index))` reading `dimensions[i]`; the zip
agrees with it whenever `len(index) <= len(dimensions)` (the only case the
callers reach). -/
def mixedIndex (b : Int) (index dims : List Int) : Int :=
  indexLoop b (index.zip dims) 0 1

/-- `Arrays.array_len(dimensions)`: flat element count. -/
def arrayLenP (b : Int) (dims : List Int) : Int :=
  mixedIndex b dims dims + 1

/-- The per-axis factors `d + 1 - base` multiplied out. -/
def prodFactors (b : Int) (dims : List Int) : Int :=
  (dims.map (fun d => d + 1 - b)).prod

/-- Nested-form value of the index loop: first axis varies fastest. -/
def mixedSpec (b : Int) : List (Int × Int) → Int
  | [] => 0
  | p :: rest => (p.1 - b) + (p.2 + 1 - b) * mixedSpec b rest

/-- Products of the second components, the radix of the tail. -/
def prodSnd (b : Int) (l : List (Int × Int)) : Int :=
  (l.map (fun p => p.2 + 1 - b)).prod

/-! ### State operations -/

/-- The header record length
`1 + max(3, len(name)) + 3 + 2*len(dimensions)`. -/
def recordLen (name : String) (dims : List Int) : Int :=
  1 + ↑(max 3 name.length) + 3 + 2 * ↑dims.length

/-- Whole span (header + data) of one entry in the arena. -/
def spanLen (e : ArrayEntry) : Int :=
  recordLen e.name e.dims + ↑e.buf.length

/-- Python slice `l[a:b]` for `0 ≤ a` (negative starts never occur on the
paths the claims exercise). -/
def listSlice (l : List Nat) (a b : Int) : List Nat :=
  (l.drop a.toNat).take (b - a).toNat

/-- `struct.pack('<H', v)` for an in-range value. -/
def pack16 (v : Int) : List Nat :=
  [(v % 256).toNat, ((v / 256) % 256).toNat]

/-- `Arrays.clear`: drop the four dictionaries and reset `current`;
the OPTION BASE flag is untouched. -/
def clearOp (s : ArraysState) : ArraysState :=
  { entries := [], current := 0, base := s.base }

/-- `Arrays.clear_base`: unset OPTION BASE. -/
def clearBaseOp (s : ArraysState) : ArraysState :=
  { s with base := none }

/-- State after `__init__`: cleared, base unset. -/
def initState : ArraysState :=
  { entries := [], current := 0, base := none }

/-- The dimension-validation loop of `Arrays.dim`. -/
def checkDims (b : Int) : List Int → Option Err
  | [] => none
  | d :: rest =>
      if d < 0 then some .ifc
      else if d < b then some .subscriptOutOfRange
      else checkDims b rest

/-- `Arrays.dim(name, dimensions)`.  On an error the returned state carries
only the base resolution (`self._base = 0` when it was `None`), since the
source raises before any other mutation. -/
def dimOp (env : Env) (s : ArraysState) (name : String) (dims : List Int) :
    ArraysState × Option Err :=
  let b := s.base.getD 0
  let s1 : ArraysState := { s with base := some b }
  if (findEntry s1 name).isSome then (s1, some .duplicateDefinition)
  else match checkDims b dims with
  | some e => (s1, some e)
  | none =>
      let size := arrayLenP b dims
      let namePtr := s1.current
      let recLen := recordLen name dims
      let arrayPtr := namePtr + recLen
      let arrayBytes : Int := size * ↑(env.sizeBytes name)
      if env.checkFree (recLen + arrayBytes) then
        ({ entries := s1.entries ++
              [⟨name, dims, List.replicate arrayBytes.toNat 0, none, namePtr, arrayPtr⟩],
           current := s1.current + recLen + arrayBytes,
           base := some b }, none)
      else (s1, some .outOfMemory)

/-- The compaction shift applied to each remaining entry by `Arrays.erase`:
`if name_ptr > erased_name_ptr` both addresses drop by `freed_bytes`. -/
def condShift (erasedPtr freed : Int) (f : ArrayEntry) : ArrayEntry :=
  if erasedPtr < f.namePtr then
    { f with namePtr := f.namePtr - freed, arrayPtr := f.arrayPtr - freed }
  else f

/-- `Arrays.erase(name)`. -/
def eraseOp (env : Env) (s : ArraysState) (name : String) :
    ArraysState × Option Err :=
  match findEntry s name with
  | none => (s, some .ifc)
  | some e =>
      let recLen := recordLen name e.dims
      let freed := arrayLenP (baseVal s) e.dims * ↑(env.sizeBytes name) + recLen
      ({ s with
          entries := (s.entries.eraseP (fun f => f.name == name)).map
            (condShift e.namePtr freed),
          current := s.current - freed }, none)

/-- The per-axis index validation loop of `Arrays.check_dim`
(`i < 0` raises IFC; `i < base or i > d` raises SubscriptOutOfRange). -/
def checkIndexAxes (b : Int) : List (Int × Int) → Option Err
  | [] => none
  | p :: rest =>
      if p.1 < 0 then some .ifc
      else if p.1 < b ∨ p.2 < p.1 then some .subscriptOutOfRange
      else checkIndexAxes b rest

/-- Arity check plus per-axis validation of `Arrays.check_dim`. -/
def validateIndex (b : Int) (index dims : List Int) : Option Err :=
  if index.length ≠ dims.length then some .subscriptOutOfRange
  else checkIndexAxes b (index.zip dims)

/-- `Arrays.check_dim(name, index)`: auto-dimension a missing name to
`[10] * len(index)` via `dim`, then validate the index.  The auto-created
array persists even when the validation then fails. -/
def checkDimOp (env : Env) (s : ArraysState) (name : String) (index : List Int) :
    ArraysState × Except Err (List Int) :=
  match findEntry s name with
  | some e =>
      match validateIndex (baseVal s) index e.dims with
      | some err => (s, .error err)
      | none => (s, .ok e.dims)
  | none =>
      let dims := List.replicate index.length 10
      match dimOp env s name dims with
      | (s1, some err) => (s1, .error err)
      | (s1, none) =>
          match validateIndex (baseVal s1) index dims with
          | some err => (s1, .error err)
          | none => (s1, .ok dims)

/-- `name[-1]`: the type sigil. -/
def nameSigil (name : String) : Char := name.back

/-- `Arrays.set(name, index, value)`: copy the canonical encoding of the
value over the element's view and drop the cache slot.  The buffer splice
models the in-range slice assignment `view[:] = bytes`, the only case that a
legal index together with a width-respecting encoder can produce. -/
def setOp (env : Env) (s : ArraysState) (name : String) (index : List Int)
    (v : List Nat) : ArraysState × Option Err :=
  match checkDimOp env s name index with
  | (s1, .error err) => (s1, some err)
  | (s1, .ok dims) =>
      let big := mixedIndex (baseVal s1) index dims
      let k := env.sizeBytes name
      let bs := env.toTypeBytes (nameSigil name) v
      let start := (big * ↑k).toNat
      ({ s1 with entries := s1.entries.map (fun f =>
          if f.name == name then
            { f with buf := f.buf.take start ++ bs ++ f.buf.drop (start + bs.length),
                     cache := none }
          else f) }, none)

/-- `Arrays.view_buffer` followed by `Arrays.get`: the element's byte window
`lst[bigindex*bytesize : (bigindex+1)*bytesize]` (the value wrapper
`_values.create` is external and byte-transparent). -/
def getOp (env : Env) (s : ArraysState) (name : String) (index : List Int) :
    ArraysState × Except Err (List Nat) :=
  match checkDimOp env s name index with
  | (s1, .error err) => (s1, .error err)
  | (s1, .ok dims) =>
      let big := mixedIndex (baseVal s1) index dims
      let k := env.sizeBytes name
      (s1, .ok (listSlice (bufOf s1 name) (big * ↑k) ((big + 1) * ↑k)))

/-- `Arrays.varptr(name, indices)`: absolute address of an element
(`KeyError` on a missing name becomes `none`). -/
def varptrOp (env : Env) (s : ArraysState) (name : String) (indices : List Int) :
    Option Int :=
  match findEntry s name with
  | none => none
  | some e =>
      some (env.varCurrent + e.arrayPtr +
        ↑(env.sizeBytes name) * mixedIndex (baseVal s) indices e.dims)

/-- The scan loop of `Arrays.dereference`: track the greatest absolute data
address not exceeding the queried address. -/
def derefScan (vc addr : Int) : List ArrayEntry → Int × Option String → Int × Option String
  | [], acc => acc
  | e :: rest, acc =>
      derefScan vc addr rest
        (if vc + e.arrayPtr > acc.1 ∧ vc + e.arrayPtr ≤ addr
         then (vc + e.arrayPtr, some e.name) else acc)

/-- `Arrays.dereference(address)`, returning the byte window handed to
`_values.from_bytes`.  The source reads `self._buffers[name]` and
`values.size_bytes(name)` where `name` is the left-over loop variable of the
scan — the key iterated last — rather than `found_name`; the model keeps that
behaviour, taking the last entry of the table.  (When a name was found the
table is nonempty, so the last entry exists.) -/
def dereferenceOp (env : Env) (s : ArraysState) (address : Int) :
    Option (List Nat) :=
  let acc := derefScan env.varCurrent address s.entries (-1, none)
  match acc.2, s.entries.getLast? with
  | some _, some lastE =>
      some (listSlice lastE.buf (address - acc.1)
        (address - acc.1 + ↑(env.sizeBytes lastE.name)))
  | _, _ => none

/-- `Arrays.array_size_bytes(name)`: 0 for a missing name, else
`array_len(dims) * size_bytes(name)`. -/
def arraySizeBytesI (env : Env) (s : ArraysState) (name : String) : Int :=
  match findEntry s name with
  | none => 0
  | some e => arrayLenP (baseVal s) e.dims * ↑(env.sizeBytes name)

/-- The header payload `data_rep` rebuilt by `Arrays.get_memory` on every
call: `pack('<HB', array_size_bytes + 1 + 2*ndims, ndims)` followed by one
`pack('<H', d + 1 - base)` per dimension. -/
def headerRecordRep (env : Env) (s : ArraysState) (name : String) : List Nat :=
  pack16 (arraySizeBytesI env s name + 1 + 2 * ↑(dimsOf s name).length) ++
    [(dimsOf s name).length % 256] ++
    ((dimsOf s name).map (fun d => pack16 (d + 1 - baseVal s))).flatten

/-- The scan loop of `Arrays.get_memory`: track the greatest header address
(`name_try`, an arena-relative offset) not exceeding the queried address —
which the source takes absolute further down. -/
def gmScan (addr : Int) : List ArrayEntry → Int × Int × Option String → Int × Int × Option String
  | [], acc => acc
  | e :: rest, acc =>
      gmScan addr rest
        (if e.namePtr ≤ addr ∧ e.namePtr > acc.1
         then (e.namePtr, e.arrayPtr, some e.name) else acc)

/-- `Arrays.get_memory(address)`: a data byte, a name byte, a reconstructed
header byte, or `-1`. -/
def getMemoryOp (env : Env) (s : ArraysState) (address : Int) : Int :=
  match gmScan address s.entries (-1, -1, none) with
  | (nameAddr, arrAddr, theArr) =>
    match theArr with
    | none => -1
    | some nm =>
        let vc := env.varCurrent
        if vc + arrAddr ≤ address then
          let offset := address - arrAddr - vc
          if arraySizeBytesI env s nm ≤ offset then -1
          else ↑((bufOf s nm).getD offset.toNat 0)
        else
          let offset := address - nameAddr - vc
          if offset < ↑(max 3 nm.length) + 1 then ↑(env.getNameInMemory nm offset)
          else ↑((headerRecordRep env s nm).getD (offset - (↑(max 3 nm.length) + 1)).toNat 0)

/-- States reachable by sequences of declare (`dim`), `erase` and `clear`,
the operations claim C3 ranges over, from a fresh `Arrays` object. -/
inductive Reachable (env : Env) : ArraysState → Prop
  | init : Reachable env initState
  | dim (s : ArraysState) (name : String) (dims : List Int) :
      Reachable env s → Reachable env (dimOp env s name dims).1
  | erase (s : ArraysState) (name : String) :
      Reachable env s → Reachable env (eraseOp env s name).1
  | clear (s : ArraysState) :
      Reachable env s → Reachable env (clearOp s)

/-! ### The arena invariant -/

/-- The pure address shift applied by compaction to an entry strictly after
the erased one. -/
def shiftEntry (d : Int) (f : ArrayEntry) : ArrayEntry :=
  { f with namePtr := f.namePtr - d, arrayPtr := f.arrayPtr - d }

/-- The entries tile the arena in list order: each header starts where the
previous data ended, each data address sits `recordLen` past its header,
and the last data ends at `cur`. -/
def chainedB : Int → List ArrayEntry → Int → Bool
  | start, [], cur => cur == start
  | start, e :: rest, cur =>
      (e.namePtr == start) &&
      (e.arrayPtr == e.namePtr + recordLen e.name e.dims) &&
      chainedB (e.arrayPtr + ↑e.buf.length) rest cur

/-- Per-entry bookkeeping: the buffer has exactly
`array_len(dims) * size_bytes(name)` bytes and every dimension is at least
the base. -/
def entryOKB (env : Env) (b : Int) (e : ArrayEntry) : Bool :=
  ((e.buf.length : Int) == arrayLenP b e.dims * ↑(env.sizeBytes e.name)) &&
  e.dims.all (fun d => decide (b ≤ d))

/-- The OPTION BASE flag is unset only while the table is empty, and once
resolved it is 0 or 1 and every entry satisfies `entryOKB`. -/
def baseOKB (env : Env) (s : ArraysState) : Bool :=
  match s.base with
  | none => s.entries.isEmpty
  | some b => (b == 0 || b == 1) && s.entries.all (entryOKB env b)

/-- Declared names are pairwise distinct. -/
def nodupNamesB : List ArrayEntry → Bool
  | [] => true
  | e :: rest => !(rest.any (fun f => f.name == e.name)) && nodupNamesB rest

/-- The full state invariant maintained by declare/erase/clear. -/
def invB (env : Env) (s : ArraysState) : Bool :=
  chainedB 0 s.entries s.current && baseOKB env s && nodupNamesB s.entries

/-! ### Concrete fixtures

`envAbs` places the array area at absolute address 100 (a scalar area in
front of the arrays, the realistic configuration); `envRel` places it at 0.
`stAB` is the table after `DIM A%(0)`, `DIM B%(0)` and writing bytes
`[7, 7]` to `A%(0)` and `[9, 9]` to `B%(0)`: entry `A%` occupies header
range `[0, 9)` and data range `[9, 11)`, entry `B%` header `[11, 20)` and
data `[20, 22)`, with `current = 22`. -/

def envAbs : Env :=
  { sizeBytes := fun _ => 2, checkFree := fun _ => true, varCurrent := 100,
    getNameInMemory := fun _ _ => 0, toTypeBytes := fun _ v => v }

def envRel : Env :=
  { sizeBytes := fun _ => 2, checkFree := fun _ => true, varCurrent := 0,
    getNameInMemory := fun _ _ => 0, toTypeBytes := fun _ v => v }

def stAB : ArraysState :=
  { entries := [⟨"A%", [0], [7, 7], none, 0, 9⟩, ⟨"B%", [0], [9, 9], none, 11, 20⟩],
    current := 22, base := some 0 }

/-! ### Arithmetic facts about the indexer -/

theorem indexLoop_eq (b : Int) (l : List (Int × Int)) (big area : Int) :
    indexLoop b l big area = big + area * mixedSpec b l := by
  induction l generalizing big area with
  | nil => simp [indexLoop, mixedSpec]
  | cons p rest ih =>
      simp only [indexLoop, mixedSpec, ih]
      ring

theorem zip_self_eq_map (dims : List Int) :
    dims.zip dims = dims.map (fun d => (d, d)) := by
  induction dims with
  | nil => rfl
  | cons d rest ih => simp [List.zip_cons_cons, ih]

theorem mixedSpec_diag (b : Int) (dims : List Int) :
    mixedSpec b (dims.zip dims) = prodFactors b dims - 1 := by
  rw [zip_self_eq_map]
  induction dims with
  | nil => simp [mixedSpec, prodFactors]
  | cons d rest ih =>
      simp only [List.map_cons, mixedSpec, prodFactors, List.prod_cons] at *
      rw [ih]
      ring

/-- The flat length computed through `index(d, d) + 1` is the product of the
per-axis factors, with no side condition. -/
theorem arrayLenP_eq_prod (b : Int) (dims : List Int) :
    arrayLenP b dims = prodFactors b dims := by
  unfold arrayLenP mixedIndex
  rw [indexLoop_eq, mixedSpec_diag]
  ring

theorem prodFactors_pos (b : Int) (dims : List Int)
    (h : ∀ d ∈ dims, b ≤ d) : 1 ≤ prodFactors b dims := by
  induction dims with
  | nil => simp [prodFactors]
  | cons d rest ih =>
      have hd : b ≤ d := h d (List.mem_cons_self _ _)
      have hrest : 1 ≤ prodFactors b rest :=
        ih (fun x hx => h x (List.mem_cons_of_mem _ hx))
      have hfac : 1 ≤ d + 1 - b := by omega
      calc (1 : Int) = 1 * 1 := by ring
        _ ≤ (d + 1 - b) * prodFactors b rest := by
              exact mul_le_mul hfac hrest (by omega) (by omega)
        _ = prodFactors b (d :: rest) := by
              simp [prodFactors, List.prod_cons]

theorem mixedSpec_nonneg (b : Int) (l : List (Int × Int))
    (h : ∀ p ∈ l, b ≤ p.1 ∧ p.1 ≤ p.2) : 0 ≤ mixedSpec b l := by
  induction l with
  | nil => simp [mixedSpec]
  | cons p rest ih =>
      have hp := h p (List.mem_cons_self _ _)
      have hrest : 0 ≤ mixedSpec b rest :=
        ih (fun x hx => h x (List.mem_cons_of_mem _ hx))
      have hfac : (0 : Int) ≤ p.2 + 1 - b := by omega
      have := mul_nonneg hfac hrest
      simp only [mixedSpec]
      omega

theorem prodSnd_pos (b : Int) (l : List (Int × Int))
    (h : ∀ p ∈ l, b ≤ p.2) : 1 ≤ prodSnd b l := by
  induction l with
  | nil => simp [prodSnd]
  | cons p rest ih =>
      have hp := h p (List.mem_cons_self _ _)
      have hrest : 1 ≤ prodSnd b rest :=
        ih (fun x hx => h x (List.mem_cons_of_mem _ hx))
      have hfac : 1 ≤ p.2 + 1 - b := by omega
      calc (1 : Int) = 1 * 1 := by ring
        _ ≤ (p.2 + 1 - b) * prodSnd b rest :=
              mul_le_mul hfac hrest (by omega) (by omega)
        _ = prodSnd b (p :: rest) := by simp [prodSnd, List.prod_cons]

theorem mixedSpec_lt_prodSnd (b : Int) (l : List (Int × Int))
    (h : ∀ p ∈ l, b ≤ p.1 ∧ p.1 ≤ p.2) :
    mixedSpec b l < prodSnd b l := by
  induction l with
  | nil => simp [mixedSpec, prodSnd]
  | cons p rest ih =>
      have hp := h p (List.mem_cons_self _ _)
      have hrest : mixedSpec b rest < prodSnd b rest :=
        ih (fun x hx => h x (List.mem_cons_of_mem _ hx))
      have hfac : 1 ≤ p.2 + 1 - b := by omega
      have hms : mixedSpec b rest ≤ prodSnd b rest - 1 := by omega
      have hmul : (p.2 + 1 - b) * mixedSpec b rest ≤
          (p.2 + 1 - b) * (prodSnd b rest - 1) :=
        mul_le_mul_of_nonneg_left hms (by omega)
      simp only [mixedSpec, prodSnd, List.map_cons, List.prod_cons]
      have expand : (p.2 + 1 - b) * (prodSnd b rest - 1) =
          (p.2 + 1 - b) * prodSnd b rest - (p.2 + 1 - b) := by ring
      simp only [prodSnd] at hmul expand
      omega

theorem prodSnd_zip (b : Int) (index dims : List Int)
    (h : index.length = dims.length) :
    prodSnd b (index.zip dims) = prodFactors b dims := by
  induction index generalizing dims with
  | nil =>
      cases dims with
      | nil => rfl
      | cons d rest => simp at h
  | cons i irest ih =>
      cases dims with
      | nil => simp at h
      | cons d drest =>
          have h' : irest.length = drest.length := by
            simpa using h
          simp only [prodSnd, prodFactors, List.zip_cons_cons, List.map_cons,
            List.prod_cons] at *
          rw [ih drest h']

/-! ### Claim C1 -/

/-- C1: for base 0 or 1 and a nonempty dimension list whose entries are all
at least the base, the flat length computed through the mixed-radix
accumulation as `index(dimensions, dimensions) + 1` equals the direct
product over all axes of `dimension_i + 1 - base`. -/
theorem c1_flat_length_eq_product (b : Int) (dims : List Int)
    (_hb : b = 0 ∨ b = 1) (_hne : dims ≠ []) (_hd : ∀ d ∈ dims, b ≤ d) :
    arrayLenP b dims = prodFactors b dims :=
  arrayLenP_eq_prod b dims

theorem c1_witness :
    ((0 : Int) = 0 ∨ (0 : Int) = 1) ∧ ([3, 4] : List Int) ≠ [] ∧
      (∀ d ∈ ([3, 4] : List Int), (0 : Int) ≤ d) ∧
      arrayLenP 0 [3, 4] = prodFactors 0 [3, 4] ∧ arrayLenP 0 [3, 4] = 20 :=
  ⟨Or.inl rfl, by decide, by decide,
    c1_flat_length_eq_product 0 [3, 4] (Or.inl rfl) (by decide) (by decide),
    by decide⟩

/-! ### Claim C2 -/

/-- C2 fails on the code: `dereference` looks the buffer and the element
size up under the scan's left-over loop variable (the last key iterated)
instead of `found_name`.  Here `varptr("A%", [0])` is 109, the owning
descriptor found by the scan is `A%` whose element bytes are `[7, 7]`, yet
`dereference(109)` reads `[9, 9]` — the bytes of `B%`, the last entry of
the table. -/
theorem c2_dereference_reads_wrong_buffer :
    varptrOp envAbs stAB "A%" [0] = some 109 ∧
    listSlice (bufOf stAB "A%") 0 2 = [7, 7] ∧
    dereferenceOp envAbs stAB 109 = some [9, 9] := by
  decide

/-! ### Claim C5 -/

/-- C5 fails on the code: the ownership scan of `get_memory` compares the
arena-relative header offsets against the absolute queried address, so with
a nonzero scalar-area base and more than one array the wrong descriptor is
selected.  Address 109 lies inside the data range of `A%` (absolute data
address 109, byte `7`), yet `get_memory(109)` resolves the owner to `B%`
and returns a name-encoding byte (0) instead. -/
theorem c5_get_memory_wrong_owner :
    (100 + 9 + 0 : Int) = 100 + ((findEntry stAB "A%").map (·.arrayPtr)).getD 0 + 0 ∧
    (bufOf stAB "A%").getD 0 0 = 7 ∧
    getMemoryOp envAbs stAB (100 + 9 + 0) = 0 := by
  decide

/-! ### Claim C7 -/

/-- C7 as stated is false: `Arrays.clear` does not unset the OPTION BASE
flag — a state with base 1 keeps base 1 after the table-wide clear. -/
theorem c7_counterexample :
    (clearOp { entries := [], current := 0, base := some 1 }).base ≠ none := by
  decide

/-- C7 amended: the table-wide clear removes every descriptor (and with
them all buffers and cache entries) and resets `current` to zero, but
leaves the OPTION BASE flag exactly as it was; the flag is unset only by
the separate `clear_base` operation, which touches nothing else. -/
theorem c7_clear_amended (s : ArraysState) :
    (clearOp s).entries = [] ∧ (clearOp s).current = 0 ∧
    (clearOp s).base = s.base ∧
    (clearBaseOp s).base = none ∧ (clearBaseOp s).entries = s.entries ∧
    (clearBaseOp s).current = s.current := by
  simp [clearOp, clearBaseOp]

/-! ### Claim C10 -/

/-- On any failing `dim`, the whole state is the input state with only the
base resolved. -/
theorem dimOp_error_state (env : Env) (s : ArraysState)
    (name : String) (dims : List Int) (err : Err)
    (h : (dimOp env s name dims).2 = some err) :
    (dimOp env s name dims).1 = { s with base := some (s.base.getD 0) } := by
  unfold dimOp at h ⊢
  by_cases hf : (findEntry { s with base := some (s.base.getD 0) } name).isSome
  · simp [hf]
  · simp only [hf, if_false, Bool.false_eq_true] at h ⊢
    cases hc : checkDims (s.base.getD 0) dims with
    | some e => simp [hc]
    | none =>
        simp only [hc] at h ⊢
        by_cases hm : env.checkFree (recordLen name dims +
            arrayLenP (s.base.getD 0) dims * ↑(env.sizeBytes name)) = true
        · simp [hm] at h
        · simp [hm]

/-- C10: every error of `dim` — DuplicateDefinition, IllegalValue,
SubscriptOutOfRange or OutOfMemory — is raised before any mutation of the
descriptor table or `current`; the only state change on an error path is
the resolution of an unset OPTION BASE to 0. -/
theorem c10_dim_error_no_mutation (env : Env) (s : ArraysState)
    (name : String) (dims : List Int) (err : Err)
    (h : (dimOp env s name dims).2 = some err) :
    (dimOp env s name dims).1.entries = s.entries ∧
    (dimOp env s name dims).1.current = s.current ∧
    (dimOp env s name dims).1.base = some (s.base.getD 0) := by
  rw [dimOp_error_state env s name dims err h]
  exact ⟨rfl, rfl, rfl⟩

theorem c10_witness :
    (dimOp envAbs stAB "A%" [0]).1.entries = stAB.entries ∧
    (dimOp envAbs stAB "A%" [0]).1.current = stAB.current ∧
    (dimOp envAbs stAB "A%" [0]).1.base = some (stAB.base.getD 0) :=
  c10_dim_error_no_mutation envAbs stAB "A%" [0] .duplicateDefinition (by decide)

/-! ### Claim C9 -/

theorem findEntry_set_base (s : ArraysState) (b : Option Int) (name : String) :
    findEntry { s with base := b } name = findEntry s name := rfl

theorem checkDims_all_ok (b : Int) (dims : List Int)
    (h : ∀ d ∈ dims, 0 ≤ d ∧ b ≤ d) : checkDims b dims = none := by
  induction dims with
  | nil => rfl
  | cons d rest ih =>
      have hd := h d (List.mem_cons_self _ _)
      simp only [checkDims, if_neg (by omega : ¬ d < 0), if_neg (by omega : ¬ d < b)]
      exact ih (fun x hx => h x (List.mem_cons_of_mem _ hx))

theorem find?_append_of_none {α} (p : α → Bool) (l₁ l₂ : List α)
    (h : l₁.find? p = none) : (l₁ ++ l₂).find? p = l₂.find? p := by
  induction l₁ with
  | nil => rfl
  | cons a t ih =>
      rw [List.find?_cons] at h
      cases hp : p a with
      | true => simp [hp] at h
      | false =>
          simp only [hp] at h
          simp only [List.cons_append, List.find?_cons, hp]
          exact ih h

/-- On a missing name, `check_dim` leaves exactly the state that the inner
auto-dimensioning `dim` produced, whether or not the index then validates. -/
theorem checkDimOp_state_of_missing (env : Env) (s : ArraysState)
    (name : String) (index : List Int)
    (hmiss : findEntry s name = none) :
    (checkDimOp env s name index).1 =
      (dimOp env s name (List.replicate index.length 10)).1 := by
  simp only [checkDimOp, hmiss]
  rcases hdim : dimOp env s name (List.replicate index.length 10) with ⟨s1, r⟩
  cases r with
  | some err => rfl
  | none =>
      cases hv : validateIndex (baseVal s1) index (List.replicate index.length 10) with
      | some err => simp [hv]
      | none => simp [hv]

/-- The successful branch of `Arrays.dim` spelled out. -/
theorem dimOp_success_state (env : Env) (s : ArraysState) (name : String)
    (dims : List Int)
    (hmiss : findEntry s name = none)
    (hdims : checkDims (s.base.getD 0) dims = none)
    (hfree : env.checkFree (recordLen name dims +
        arrayLenP (s.base.getD 0) dims * ↑(env.sizeBytes name)) = true) :
    dimOp env s name dims =
      ({ entries := s.entries ++
            [⟨name, dims,
              List.replicate (arrayLenP (s.base.getD 0) dims *
                ↑(env.sizeBytes name)).toNat 0,
              none, s.current, s.current + recordLen name dims⟩],
         current := s.current + recordLen name dims +
           arrayLenP (s.base.getD 0) dims * ↑(env.sizeBytes name),
         base := some (s.base.getD 0) }, none) := by
  simp only [dimOp, findEntry_set_base, hmiss, Option.isSome_none,
    Bool.false_eq_true, if_false, hdims]
  rw [if_pos hfree]

/-- The dimension list `[10] * n` passes `dim`'s validation for base 0 or 1. -/
theorem checkDims_replicate10 (b : Int) (hb : b = 0 ∨ b = 1) (n : Nat) :
    checkDims b (List.replicate n 10) = none := by
  apply checkDims_all_ok
  intro d hd
  have : d = 10 := List.eq_of_mem_replicate hd
  omega

/-- C9: an indexed access to an undeclared name auto-creates the array with
every dimension equal to 10 (one per index axis), resolving an unset OPTION
BASE to 0 in passing, and any subsequent explicit `dim` of the same name
fails with DuplicateDefinition — whatever dimensions it requests. -/
theorem c9_autodim_then_duplicate (env : Env) (s : ArraysState) (name : String)
    (index : List Int)
    (hmiss : findEntry s name = none)
    (hbase : s.base.getD 0 = 0 ∨ s.base.getD 0 = 1)
    (hfree : env.checkFree (recordLen name (List.replicate index.length 10) +
        arrayLenP (s.base.getD 0) (List.replicate index.length 10) *
        ↑(env.sizeBytes name)) = true) :
    (∃ e, findEntry (checkDimOp env s name index).1 name = some e ∧
        e.dims = List.replicate index.length 10) ∧
    (checkDimOp env s name index).1.base = some (s.base.getD 0) ∧
    ∀ dims2, (dimOp env (checkDimOp env s name index).1 name dims2).2 =
        some .duplicateDefinition := by
  have hdims := checkDims_replicate10 (s.base.getD 0) hbase index.length
  rw [checkDimOp_state_of_missing env s name index hmiss,
    dimOp_success_state env s name (List.replicate index.length 10) hmiss hdims hfree]
  set newE : ArrayEntry :=
    ⟨name, List.replicate index.length 10,
      List.replicate (arrayLenP (s.base.getD 0) (List.replicate index.length 10) *
        ↑(env.sizeBytes name)).toNat 0,
      none, s.current,
      s.current + recordLen name (List.replicate index.length 10)⟩ with hnew
  have hfind : findEntry
      ({ entries := s.entries ++ [newE],
         current := s.current + recordLen name (List.replicate index.length 10) +
           arrayLenP (s.base.getD 0) (List.replicate index.length 10) *
           ↑(env.sizeBytes name),
         base := some (s.base.getD 0) } : ArraysState) name = some newE := by
    unfold findEntry
    simp only []
    rw [find?_append_of_none _ _ _ hmiss]
    simp [hnew, List.find?_cons]
  refine ⟨⟨newE, hfind, rfl⟩, rfl, ?_⟩
  intro dims2
  simp only [dimOp, findEntry_set_base, Option.getD_some]
  rw [hfind]
  simp

theorem c9_witness :
    (∃ e, findEntry (checkDimOp envRel initState "X%" [2, 2]).1 "X%" = some e ∧
        e.dims = List.replicate ([2, 2] : List Int).length 10) ∧
    (checkDimOp envRel initState "X%" [2, 2]).1.base =
      some (initState.base.getD 0) ∧
    ∀ dims2, (dimOp envRel (checkDimOp envRel initState "X%" [2, 2]).1 "X%" dims2).2 =
        some .duplicateDefinition :=
  c9_autodim_then_duplicate envRel initState "X%" [2, 2] (by decide) (Or.inl rfl) rfl

/-! ### Claim C8 -/

theorem mixedIndex_eq_mixedSpec (b : Int) (index dims : List Int) :
    mixedIndex b index dims = mixedSpec b (index.zip dims) := by
  unfold mixedIndex
  rw [indexLoop_eq]
  ring

/-- The flat offset of a legal index is within the flat length. -/
theorem mixedIndex_bounds (b : Int) (index dims : List Int)
    (hlen : index.length = dims.length)
    (hzip : ∀ p ∈ index.zip dims, b ≤ p.1 ∧ p.1 ≤ p.2) :
    0 ≤ mixedIndex b index dims ∧
    mixedIndex b index dims + 1 ≤ arrayLenP b dims := by
  rw [mixedIndex_eq_mixedSpec, arrayLenP_eq_prod, ← prodSnd_zip b index dims hlen]
  refine ⟨mixedSpec_nonneg b _ hzip, ?_⟩
  have := mixedSpec_lt_prodSnd b (index.zip dims) hzip
  omega

theorem checkIndexAxes_all_ok (b : Int) (l : List (Int × Int))
    (hb0 : 0 ≤ b) (h : ∀ p ∈ l, b ≤ p.1 ∧ p.1 ≤ p.2) :
    checkIndexAxes b l = none := by
  induction l with
  | nil => rfl
  | cons p rest ih =>
      have hp := h p (List.mem_cons_self _ _)
      simp only [checkIndexAxes, if_neg (by omega : ¬ p.1 < 0),
        if_neg (by omega : ¬ (p.1 < b ∨ p.2 < p.1))]
      exact ih (fun x hx => h x (List.mem_cons_of_mem _ hx))

theorem validateIndex_ok (b : Int) (index dims : List Int)
    (hb0 : 0 ≤ b)
    (hlen : index.length = dims.length)
    (hzip : ∀ p ∈ index.zip dims, b ≤ p.1 ∧ p.1 ≤ p.2) :
    validateIndex b index dims = none := by
  unfold validateIndex
  rw [if_neg (by omega : ¬ index.length ≠ dims.length)]
  exact checkIndexAxes_all_ok b _ hb0 hzip

/-- Finding a name through a per-entry update that preserves names. -/
theorem find?_map_update (l : List ArrayEntry) (name : String)
    (upd : ArrayEntry → ArrayEntry) (hupd : ∀ e, (upd e).name = e.name) :
    (l.map (fun f => if f.name == name then upd f else f)).find?
        (fun f => f.name == name) =
      (l.find? (fun f => f.name == name)).map upd := by
  induction l with
  | nil => rfl
  | cons e rest ih =>
      by_cases he : e.name = name
      · simp [List.find?_cons, he, hupd]
      · have : (e.name == name) = false := by simp [he]
        simp only [List.map_cons, List.find?_cons, this, if_false]
        simpa [this] using ih

/-- Reading back the bytes just written over a window of a list. -/
theorem slice_splice (l bs : List Nat) (s k : Nat)
    (hs : s + k ≤ l.length) (hbs : bs.length = k) :
    ((l.take s ++ bs ++ l.drop (s + k)).drop s).take k = bs := by
  have h1 : (l.take s).length = s := by
    rw [List.length_take]
    omega
  calc ((l.take s ++ bs ++ l.drop (s + k)).drop s).take k
      = ((l.take s ++ (bs ++ l.drop (s + k))).drop (l.take s).length).take k := by
        rw [List.append_assoc, h1]
    _ = (bs ++ l.drop (s + k)).take k := by rw [List.drop_left]
    _ = (bs ++ l.drop (s + k)).take bs.length := by rw [hbs]
    _ = bs := List.take_left _ _

/-- C8: for a declared array, a legal index and a width-respecting encoder,
writing a value and reading the element back returns exactly the canonical
byte encoding of the value. -/
theorem c8_write_read_roundtrip (env : Env) (s : ArraysState) (name : String)
    (index : List Int) (v : List Nat) (e : ArrayEntry) (b : Int)
    (hfind : findEntry s name = some e)
    (hbase : s.base = some b)
    (hb : b = 0 ∨ b = 1)
    (hlen : index.length = e.dims.length)
    (hzip : ∀ p ∈ index.zip e.dims, b ≤ p.1 ∧ p.1 ≤ p.2)
    (hbuf : (e.buf.length : Int) = arrayLenP b e.dims * ↑(env.sizeBytes name))
    (henc : (env.toTypeBytes (nameSigil name) v).length = env.sizeBytes name) :
    (setOp env s name index v).2 = none ∧
    (getOp env (setOp env s name index v).1 name index).2 =
      Except.ok (env.toTypeBytes (nameSigil name) v) := by
  have hbv : baseVal s = b := by simp [baseVal, hbase]
  have hvalid : validateIndex (baseVal s) index e.dims = none := by
    rw [hbv]
    exact validateIndex_ok b index e.dims (by omega) hlen hzip
  have hcd : checkDimOp env s name index = (s, .ok e.dims) := by
    simp [checkDimOp, hfind, hvalid]
  have hbounds := mixedIndex_bounds b index e.dims hlen hzip
  set big := mixedIndex b index e.dims with hbig
  set k := env.sizeBytes name with hk
  set bs := env.toTypeBytes (nameSigil name) v with hbs
  set start := (big * ↑k).toNat with hstart
  have hinb : start + k ≤ e.buf.length := by
    have h2 : (big + 1) * ↑k ≤ arrayLenP b e.dims * (↑k : Int) :=
      mul_le_mul_of_nonneg_right hbounds.2 (Int.natCast_nonneg k)
    have h3 : big * ↑k + ↑k ≤ (e.buf.length : Int) := by
      rw [hbuf]
      calc big * ↑k + ↑k = (big + 1) * ↑k := by ring
        _ ≤ _ := h2
    have h4 : 0 ≤ big * (↑k : Int) :=
      mul_nonneg hbounds.1 (Int.natCast_nonneg k)
    omega
  have hset : setOp env s name index v =
      ({ s with entries := s.entries.map (fun f =>
          if f.name == name then
            { f with buf := f.buf.take start ++ bs ++ f.buf.drop (start + bs.length),
                     cache := none }
          else f) }, none) := by
    rw [setOp, hcd]
    simp only [hbv, ← hbig, ← hk, ← hbs, ← hstart]
  set s2 := (setOp env s name index v).1 with hs2
  have hs2entries : s2 = { s with entries := s.entries.map (fun f =>
      if f.name == name then
        { f with buf := f.buf.take start ++ bs ++ f.buf.drop (start + bs.length),
                 cache := none }
      else f) } := by rw [hs2, hset]
  have hfind2 : findEntry s2 name =
      some { e with buf := e.buf.take start ++ bs ++ e.buf.drop (start + bs.length),
                    cache := none } := by
    rw [hs2entries]
    unfold findEntry at hfind ⊢
    simp only []
    rw [find?_map_update s.entries name
      (fun f => { f with buf := f.buf.take start ++ bs ++ f.buf.drop (start + bs.length),
                         cache := none }) (fun _ => rfl), hfind]
    rfl
  have hbase2 : baseVal s2 = b := by
    rw [hs2entries]
    simpa [baseVal] using hbv
  have hvalid2 : validateIndex (baseVal s2) index e.dims = none := by
    rw [hbase2]
    exact validateIndex_ok b index e.dims (by omega) hlen hzip
  have hcd2 : checkDimOp env s2 name index = (s2, .ok e.dims) := by
    simp [checkDimOp, hfind2, hvalid2]
  refine ⟨by rw [hset], ?_⟩
  rw [getOp, hcd2]
  simp only [hbase2, ← hbig, ← hk]
  have hbufOf : bufOf s2 name =
      e.buf.take start ++ bs ++ e.buf.drop (start + bs.length) := by
    rw [bufOf, hfind2]
    rfl
  rw [hbufOf]
  unfold listSlice
  have hwidth : ((big + 1) * ↑k - big * ↑k : Int).toNat = k := by
    have : ((big + 1) * ↑k - big * ↑k : Int) = (k : Int) := by ring
    rw [this]
    exact Int.toNat_natCast k
  rw [hwidth, ← hstart, henc, slice_splice e.buf bs start k hinb henc]

theorem c8_witness :
    (setOp envRel stAB "A%" [0] [5, 6]).2 = none ∧
    (getOp envRel (setOp envRel stAB "A%" [0] [5, 6]).1 "A%" [0]).2 =
      Except.ok (envRel.toTypeBytes (nameSigil "A%") [5, 6]) :=
  c8_write_read_roundtrip envRel stAB "A%" [0] [5, 6]
    ⟨"A%", [0], [7, 7], none, 0, 9⟩ 0
    (by decide) rfl (Or.inl rfl) (by decide) (by decide) (by decide) (by decide)

/-! ### Claim C4 -/

theorem find?_map_name_preserved (l : List ArrayEntry)
    (g : ArrayEntry → ArrayEntry) (hg : ∀ e, (g e).name = e.name) (nm : String) :
    (l.map g).find? (fun f => f.name == nm) =
      (l.find? (fun f => f.name == nm)).map g := by
  induction l with
  | nil => rfl
  | cons e rest ih =>
      by_cases he : e.name = nm
      · simp [List.find?_cons, he, hg]
      · have hf : (e.name == nm) = false := by simp [he]
        have hgf : ((g e).name == nm) = false := by simp [hg, he]
        simp only [List.map_cons, List.find?_cons, hf, hgf]
        exact ih

/-- Erasing the first entry of one name leaves the lookup of a different
name unchanged. -/
theorem find?_eraseP_ne (l : List ArrayEntry) (nmA nmB : String)
    (hne : nmB ≠ nmA) :
    (l.eraseP (fun f => f.name == nmA)).find? (fun f => f.name == nmB) =
      l.find? (fun f => f.name == nmB) := by
  induction l with
  | nil => rfl
  | cons e rest ih =>
      by_cases ha : e.name = nmA
      · have h1 : (e.name == nmA) = true := by simp [ha]
        have h2 : ¬ (e.name == nmB) = true := by
          simp only [beq_iff_eq]
          intro h
          exact hne (by rw [← h, ha])
        rw [List.eraseP_cons, h1, cond_true,
          @List.find?_cons_of_neg _ (fun f => f.name == nmB) e rest h2]
      · have h1 : (e.name == nmA) = false := by simp [ha]
        rw [List.eraseP_cons, h1, cond_false]
        by_cases hb : (e.name == nmB) = true
        · rw [@List.find?_cons_of_pos _ (fun f => f.name == nmB) e
              (List.eraseP (fun f => f.name == nmA) rest) hb,
            @List.find?_cons_of_pos _ (fun f => f.name == nmB) e rest hb]
        · rw [@List.find?_cons_of_neg _ (fun f => f.name == nmB) e
              (List.eraseP (fun f => f.name == nmA) rest) hb,
            @List.find?_cons_of_neg _ (fun f => f.name == nmB) e rest hb]
          exact ih

/-- C4: erasing `A` shifts every descriptor whose header address exceeds
`A`'s — in particular `B` — down by exactly
`freed(A) = flat_length(A) * element_size(A) + header_size(A)` in both
addresses, lowers `current` by the same amount, keeps `B`'s dimensions,
buffer and cache untouched, and leaves every descriptor at or below `A`'s
header address entirely unchanged. -/
theorem c4_erase_compaction (env : Env) (s : ArraysState) (nmA nmB : String)
    (a bE : ArrayEntry)
    (hA : findEntry s nmA = some a)
    (hB : findEntry s nmB = some bE)
    (hgt : a.namePtr < bE.namePtr) :
    (eraseOp env s nmA).2 = none ∧
    (eraseOp env s nmA).1.current = s.current -
      (arrayLenP (baseVal s) a.dims * ↑(env.sizeBytes nmA) + recordLen nmA a.dims) ∧
    findEntry (eraseOp env s nmA).1 nmB =
      some { bE with
        namePtr := bE.namePtr -
          (arrayLenP (baseVal s) a.dims * ↑(env.sizeBytes nmA) + recordLen nmA a.dims),
        arrayPtr := bE.arrayPtr -
          (arrayLenP (baseVal s) a.dims * ↑(env.sizeBytes nmA) + recordLen nmA a.dims) } ∧
    ∀ nmC c, findEntry s nmC = some c → nmC ≠ nmA → ¬ a.namePtr < c.namePtr →
      findEntry (eraseOp env s nmA).1 nmC = some c := by
  have hex : eraseOp env s nmA =
      ({ s with
          entries := (s.entries.eraseP (fun f => f.name == nmA)).map
            (condShift a.namePtr
              (arrayLenP (baseVal s) a.dims * ↑(env.sizeBytes nmA) + recordLen nmA a.dims)),
          current := s.current -
            (arrayLenP (baseVal s) a.dims * ↑(env.sizeBytes nmA) + recordLen nmA a.dims) },
        none) := by
    rw [eraseOp, hA]
  have hne : nmB ≠ nmA := by
    intro h
    rw [h, hA] at hB
    have hab : a = bE := by injection hB
    rw [hab] at hgt
    exact lt_irrefl _ hgt
  refine ⟨by rw [hex], by rw [hex], ?_, ?_⟩
  · rw [hex]
    unfold findEntry
    rw [find?_map_name_preserved _ _ (fun e => by unfold condShift; split <;> rfl),
      find?_eraseP_ne _ _ _ hne]
    unfold findEntry at hB
    rw [hB]
    simp [condShift, hgt]
  · intro nmC c hC hCne hCle
    rw [hex]
    unfold findEntry
    rw [find?_map_name_preserved _ _ (fun e => by unfold condShift; split <;> rfl),
      find?_eraseP_ne _ _ _ hCne]
    unfold findEntry at hC
    rw [hC]
    simp [condShift, hCle]

theorem c4_witness :
    (eraseOp envRel stAB "A%").2 = none ∧
    (eraseOp envRel stAB "A%").1.current = stAB.current -
      (arrayLenP (baseVal stAB) [0] * ↑(envRel.sizeBytes "A%") + recordLen "A%" [0]) ∧
    findEntry (eraseOp envRel stAB "A%").1 "B%" =
      some { name := "B%", dims := [0], buf := [9, 9], cache := none,
             namePtr := 11 -
               (arrayLenP (baseVal stAB) [0] * ↑(envRel.sizeBytes "A%") + recordLen "A%" [0]),
             arrayPtr := 20 -
               (arrayLenP (baseVal stAB) [0] * ↑(envRel.sizeBytes "A%") + recordLen "A%" [0]) } ∧
    ∀ nmC c, findEntry stAB nmC = some c → nmC ≠ "A%" → ¬ (0 : Int) < c.namePtr →
      findEntry (eraseOp envRel stAB "A%").1 nmC = some c :=
  c4_erase_compaction envRel stAB "A%" "B%"
    ⟨"A%", [0], [7, 7], none, 0, 9⟩ ⟨"B%", [0], [9, 9], none, 11, 20⟩
    (by decide) (by decide) (by decide)

/-! ### Facts about the chained-arena invariant -/

theorem recordLen_pos (name : String) (dims : List Int) :
    0 < recordLen name dims := by
  unfold recordLen
  omega

theorem chainedB_nil_iff (start cur : Int) :
    chainedB start [] cur = true ↔ cur = start := by
  simp [chainedB]

theorem chainedB_cons_iff (start cur : Int) (e : ArrayEntry)
    (rest : List ArrayEntry) :
    chainedB start (e :: rest) cur = true ↔
      e.namePtr = start ∧ e.arrayPtr = e.namePtr + recordLen e.name e.dims ∧
      chainedB (e.arrayPtr + ↑e.buf.length) rest cur = true := by
  simp [chainedB, Bool.and_eq_true, and_assoc]

theorem chainedB_le (l : List ArrayEntry) :
    ∀ start cur, chainedB start l cur = true → start ≤ cur := by
  induction l with
  | nil =>
      intro start cur h
      rw [chainedB_nil_iff] at h
      omega
  | cons e rest ih =>
      intro start cur h
      rw [chainedB_cons_iff] at h
      obtain ⟨h1, h2, h3⟩ := h
      have h4 := ih _ _ h3
      have h5 := recordLen_pos e.name e.dims
      have h6 : (0 : Int) ≤ ↑e.buf.length := Int.natCast_nonneg _
      omega

theorem chainedB_mem (l : List ArrayEntry) :
    ∀ start cur e, chainedB start l cur = true → e ∈ l →
      start ≤ e.namePtr ∧
      e.arrayPtr = e.namePtr + recordLen e.name e.dims ∧
      e.namePtr + spanLen e ≤ cur := by
  induction l with
  | nil =>
      intro start cur e h he
      cases he
  | cons f rest ih =>
      intro start cur e h he
      rw [chainedB_cons_iff] at h
      obtain ⟨h1, h2, h3⟩ := h
      rcases List.mem_cons.mp he with rfl | hmem
      · refine ⟨by omega, h2, ?_⟩
        have := chainedB_le rest _ _ h3
        unfold spanLen
        omega
      · obtain ⟨g1, g2, g3⟩ := ih _ _ e h3 hmem
        have h5 := recordLen_pos f.name f.dims
        have h6 : (0 : Int) ≤ ↑f.buf.length := Int.natCast_nonneg _
        exact ⟨by omega, g2, g3⟩

theorem chainedB_split (l : List ArrayEntry) :
    ∀ start cur e, chainedB start l cur = true → e ∈ l →
      ∃ l₁ l₂, l = l₁ ++ e :: l₂ ∧ chainedB start l₁ e.namePtr = true ∧
        chainedB (e.namePtr + spanLen e) l₂ cur = true := by
  induction l with
  | nil =>
      intro start cur e h he
      cases he
  | cons f rest ih =>
      intro start cur e h he
      rw [chainedB_cons_iff] at h
      obtain ⟨h1, h2, h3⟩ := h
      rcases List.mem_cons.mp he with rfl | hmem
      · refine ⟨[], rest, rfl, ?_, ?_⟩
        · rw [chainedB_nil_iff]
          omega
        · have hsp : e.namePtr + spanLen e = e.arrayPtr + ↑e.buf.length := by
            unfold spanLen
            omega
          rw [hsp]
          exact h3
      · obtain ⟨l₁, l₂, heq, hc1, hc2⟩ := ih _ _ e h3 hmem
        refine ⟨f :: l₁, l₂, by rw [heq]; rfl, ?_, hc2⟩
        rw [chainedB_cons_iff]
        exact ⟨h1, h2, hc1⟩

theorem chainedB_glue (l₁ : List ArrayEntry) :
    ∀ l₂ start m cur, chainedB start l₁ m = true →
      chainedB m l₂ cur = true → chainedB start (l₁ ++ l₂) cur = true := by
  induction l₁ with
  | nil =>
      intro l₂ start m cur h1 h2
      rw [chainedB_nil_iff] at h1
      rw [List.nil_append]
      rw [h1] at h2
      exact h2
  | cons e rest ih =>
      intro l₂ start m cur h1 h2
      rw [chainedB_cons_iff] at h1
      obtain ⟨g1, g2, g3⟩ := h1
      rw [List.cons_append, chainedB_cons_iff]
      exact ⟨g1, g2, ih _ _ _ _ g3 h2⟩

theorem chainedB_shift (l : List ArrayEntry) :
    ∀ start cur d, chainedB start l cur = true →
      chainedB (start - d) (l.map (shiftEntry d)) (cur - d) = true := by
  induction l with
  | nil =>
      intro start cur d h
      rw [chainedB_nil_iff] at h
      rw [List.map_nil, chainedB_nil_iff]
      omega
  | cons e rest ih =>
      intro start cur d h
      rw [chainedB_cons_iff] at h
      obtain ⟨h1, h2, h3⟩ := h
      rw [List.map_cons, chainedB_cons_iff]
      refine ⟨by simp [shiftEntry]; omega, by simp [shiftEntry]; omega, ?_⟩
      have hx := ih _ _ d h3
      have hb : (shiftEntry d e).arrayPtr + ↑(shiftEntry d e).buf.length =
          e.arrayPtr + ↑e.buf.length - d := by
        simp [shiftEntry]
        omega
      rw [hb]
      simpa [shiftEntry] using hx

theorem chainedB_append_one (l : List ArrayEntry) :
    ∀ start cur e, chainedB start l cur = true →
      e.namePtr = cur → e.arrayPtr = e.namePtr + recordLen e.name e.dims →
      chainedB start (l ++ [e]) (e.arrayPtr + ↑e.buf.length) = true := by
  induction l with
  | nil =>
      intro start cur e h h1 h2
      rw [chainedB_nil_iff] at h
      rw [List.nil_append, chainedB_cons_iff]
      exact ⟨by omega, h2, by rw [chainedB_nil_iff]⟩
  | cons f rest ih =>
      intro start cur e h h1 h2
      rw [chainedB_cons_iff] at h
      obtain ⟨g1, g2, g3⟩ := h
      rw [List.cons_append, chainedB_cons_iff]
      exact ⟨g1, g2, ih _ _ e g3 h1 h2⟩

theorem chainedB_cover (l : List ArrayEntry) :
    ∀ start cur, chainedB start l cur = true →
      ∀ a : Int, (start ≤ a ∧ a < cur) ↔
        ∃ e, e ∈ l ∧ e.namePtr ≤ a ∧ a < e.arrayPtr + ↑e.buf.length := by
  induction l with
  | nil =>
      intro start cur h a
      rw [chainedB_nil_iff] at h
      subst h
      simp only [List.not_mem_nil, false_and, exists_false, iff_false]
      omega
  | cons e rest ih =>
      intro start cur h a
      rw [chainedB_cons_iff] at h
      obtain ⟨h1, h2, h3⟩ := h
      have hle := chainedB_le rest _ _ h3
      have h5 := recordLen_pos e.name e.dims
      have h6 : (0 : Int) ≤ ↑e.buf.length := Int.natCast_nonneg _
      constructor
      · rintro ⟨ha1, ha2⟩
        by_cases hc : a < e.arrayPtr + ↑e.buf.length
        · exact ⟨e, List.mem_cons_self _ _, by omega, hc⟩
        · obtain ⟨f, hf, hids⟩ := ((ih _ _ h3) a).mp ⟨by omega, ha2⟩
          exact ⟨f, List.mem_cons_of_mem _ hf, hids⟩
      · rintro ⟨f, hf, hf1, hf2⟩
        rcases List.mem_cons.mp hf with rfl | hmem
        · exact ⟨by omega, by omega⟩
        · have hb := ((ih _ _ h3) a).mpr ⟨f, hmem, hf1, hf2⟩
          exact ⟨by omega, hb.2⟩

theorem chainedB_pairwise (l : List ArrayEntry) :
    ∀ start cur, chainedB start l cur = true →
      l.Pairwise (fun e f => e.arrayPtr + (e.buf.length : Int) ≤ f.namePtr) := by
  induction l with
  | nil =>
      intro start cur h
      exact List.Pairwise.nil
  | cons e rest ih =>
      intro start cur h
      rw [chainedB_cons_iff] at h
      obtain ⟨h1, h2, h3⟩ := h
      refine List.Pairwise.cons ?_ (ih _ _ h3)
      intro f hf
      exact (chainedB_mem rest _ _ f h3 hf).1

/-! ### Preservation of the invariant -/

theorem invB_iff (env : Env) (s : ArraysState) :
    invB env s = true ↔ chainedB 0 s.entries s.current = true ∧
      baseOKB env s = true ∧ nodupNamesB s.entries = true := by
  simp [invB, Bool.and_eq_true, and_assoc]

theorem checkDims_none_imp (b : Int) (dims : List Int)
    (h : checkDims b dims = none) : ∀ d ∈ dims, 0 ≤ d ∧ b ≤ d := by
  induction dims with
  | nil =>
      intro d hd
      cases hd
  | cons d rest ih =>
      intro x hx
      unfold checkDims at h
      by_cases h1 : d < 0
      · rw [if_pos h1] at h
        simp at h
      · rw [if_neg h1] at h
        by_cases h2 : d < b
        · rw [if_pos h2] at h
          simp at h
        · rw [if_neg h2] at h
          rcases List.mem_cons.mp hx with rfl | hm
          · omega
          · exact ih h x hm

theorem dimOp_none_inv (env : Env) (s : ArraysState) (name : String)
    (dims : List Int) (hres : (dimOp env s name dims).2 = none) :
    findEntry s name = none ∧ checkDims (s.base.getD 0) dims = none ∧
    env.checkFree (recordLen name dims +
      arrayLenP (s.base.getD 0) dims * ↑(env.sizeBytes name)) = true := by
  unfold dimOp at hres
  by_cases hf : (findEntry { s with base := some (s.base.getD 0) } name).isSome
  · simp [hf] at hres
  · have hmiss : findEntry s name = none := by
      rw [← findEntry_set_base s (some (s.base.getD 0)) name]
      exact Option.not_isSome_iff_eq_none.mp hf
    refine ⟨hmiss, ?_⟩
    simp only [hf, if_false, Bool.false_eq_true] at hres
    cases hc : checkDims (s.base.getD 0) dims with
    | some e => simp [hc] at hres
    | none =>
        simp only [hc] at hres
        by_cases hm : env.checkFree (recordLen name dims +
            arrayLenP (s.base.getD 0) dims * ↑(env.sizeBytes name)) = true
        · exact ⟨rfl, hm⟩
        · simp [hm] at hres

theorem nodupNamesB_cons_iff (e : ArrayEntry) (rest : List ArrayEntry) :
    nodupNamesB (e :: rest) = true ↔
      (∀ f ∈ rest, f.name ≠ e.name) ∧ nodupNamesB rest = true := by
  simp [nodupNamesB, Bool.and_eq_true, List.any_eq_true]

theorem nodupNamesB_append_one (l : List ArrayEntry) (e : ArrayEntry)
    (h : nodupNamesB l = true) (hfresh : ∀ f ∈ l, f.name ≠ e.name) :
    nodupNamesB (l ++ [e]) = true := by
  induction l with
  | nil => simp [nodupNamesB]
  | cons f rest ih =>
      rw [nodupNamesB_cons_iff] at h
      rw [List.cons_append, nodupNamesB_cons_iff]
      constructor
      · intro g hg
        rcases List.mem_append.mp hg with hg1 | hg2
        · exact h.1 g hg1
        · have : g = e := by simpa using hg2
          subst this
          intro hne
          exact hfresh f (List.mem_cons_self _ _) hne.symm
      · exact ih h.2 (fun g hg => hfresh g (List.mem_cons_of_mem _ hg))

theorem nodupNamesB_split (l₁ l₂ : List ArrayEntry) (e : ArrayEntry)
    (h : nodupNamesB (l₁ ++ e :: l₂) = true) :
    (∀ f ∈ l₁, f.name ≠ e.name) ∧ (∀ f ∈ l₂, f.name ≠ e.name) ∧
    nodupNamesB (l₁ ++ l₂) = true := by
  induction l₁ with
  | nil =>
      rw [List.nil_append, nodupNamesB_cons_iff] at h
      exact ⟨fun f hf => absurd hf (List.not_mem_nil f), h.1, h.2⟩
  | cons g t ih =>
      rw [List.cons_append, nodupNamesB_cons_iff] at h
      obtain ⟨hg, ht⟩ := h
      obtain ⟨i1, i2, i3⟩ := ih ht
      refine ⟨?_, i2, ?_⟩
      · intro f hf
        rcases List.mem_cons.mp hf with rfl | hm
        · have := hg e (List.mem_append.mpr (Or.inr (List.mem_cons_self _ _)))
          exact fun hc => this hc.symm
        · exact i1 f hm
      · rw [List.cons_append, nodupNamesB_cons_iff]
        refine ⟨?_, i3⟩
        intro f hf
        rcases List.mem_append.mp hf with h1 | h2
        · exact hg f (List.mem_append.mpr (Or.inl h1))
        · exact hg f (List.mem_append.mpr (Or.inr (List.mem_cons_of_mem _ h2)))

theorem any_names_congr (l l' : List ArrayEntry)
    (h : l.map (fun e => e.name) = l'.map (fun e => e.name)) (x : String) :
    l.any (fun f => f.name == x) = l'.any (fun f => f.name == x) := by
  induction l generalizing l' with
  | nil =>
      cases l' with
      | nil => rfl
      | cons g t => simp at h
  | cons f t ih =>
      cases l' with
      | nil => simp at h
      | cons g t' =>
          simp only [List.map_cons, List.cons.injEq] at h
          simp only [List.any_cons, h.1, ih t' h.2]

theorem nodupNamesB_names_congr (l l' : List ArrayEntry)
    (h : l.map (fun e => e.name) = l'.map (fun e => e.name)) :
    nodupNamesB l = nodupNamesB l' := by
  induction l generalizing l' with
  | nil =>
      cases l' with
      | nil => rfl
      | cons g t => simp at h
  | cons f t ih =>
      cases l' with
      | nil => simp at h
      | cons g t' =>
          simp only [List.map_cons, List.cons.injEq] at h
          unfold nodupNamesB
          rw [any_names_congr t t' h.2 f.name, h.1, ih t' h.2]

theorem findEntry_mem (s : ArraysState) (name : String) (e : ArrayEntry)
    (h : findEntry s name = some e) : e ∈ s.entries ∧ e.name = name := by
  unfold findEntry at h
  refine ⟨List.mem_of_find?_eq_some h, ?_⟩
  have := List.find?_some h
  simpa using this

theorem invB_clear (env : Env) (s : ArraysState) (h : invB env s = true) :
    invB env (clearOp s) = true := by
  rw [invB_iff] at h ⊢
  obtain ⟨h1, h2, h3⟩ := h
  refine ⟨by simp [clearOp, chainedB], ?_, by simp [clearOp, nodupNamesB]⟩
  unfold baseOKB at h2 ⊢
  simp only [clearOp]
  cases hb : s.base with
  | none => simp
  | some b =>
      rw [hb] at h2
      simp only [Bool.and_eq_true] at h2
      simp [h2.1]

theorem invB_dim (env : Env) (s : ArraysState) (name : String)
    (dims : List Int) (h : invB env s = true) :
    invB env (dimOp env s name dims).1 = true := by
  cases herr : (dimOp env s name dims).2 with
  | some err =>
      rw [dimOp_error_state env s name dims err herr]
      rw [invB_iff] at h ⊢
      obtain ⟨h1, h2, h3⟩ := h
      refine ⟨h1, ?_, h3⟩
      unfold baseOKB at h2 ⊢
      cases hb : s.base with
      | some b =>
          rw [hb] at h2
          simpa [hb] using h2
      | none =>
          rw [hb] at h2
          have hempty : s.entries = [] := List.isEmpty_iff.mp h2
          simp [hb, hempty]
  | none =>
      obtain ⟨hmiss, hdims, hfree⟩ := dimOp_none_inv env s name dims herr
      rw [dimOp_success_state env s name dims hmiss hdims hfree]
      rw [invB_iff] at h ⊢
      obtain ⟨h1, h2, h3⟩ := h
      have hball := checkDims_none_imp (s.base.getD 0) dims hdims
      have harrpos : 1 ≤ arrayLenP (s.base.getD 0) dims := by
        rw [arrayLenP_eq_prod]
        exact prodFactors_pos _ dims (fun d hd => (hball d hd).2)
      have hbytes : (0 : Int) ≤ arrayLenP (s.base.getD 0) dims * ↑(env.sizeBytes name) :=
        mul_nonneg (by omega) (Int.natCast_nonneg _)
      have hb01 : s.base.getD 0 = 0 ∨ s.base.getD 0 = 1 := by
        cases hb : s.base with
        | none => left; rfl
        | some b0 =>
            unfold baseOKB at h2
            rw [hb] at h2
            simp only [Bool.and_eq_true, Bool.or_eq_true, beq_iff_eq] at h2
            simpa using h2.1
      have hentriesOK : s.entries.all (entryOKB env (s.base.getD 0)) = true := by
        cases hb : s.base with
        | none =>
            unfold baseOKB at h2
            rw [hb] at h2
            have hempty : s.entries = [] := List.isEmpty_iff.mp h2
            simp [hempty]
        | some b0 =>
            unfold baseOKB at h2
            rw [hb] at h2
            simp only [Bool.and_eq_true] at h2
            simpa [hb] using h2.2
      refine ⟨?_, ?_, ?_⟩
      · have happ := chainedB_append_one s.entries 0 s.current
          ⟨name, dims, List.replicate ((arrayLenP (s.base.getD 0) dims *
              ↑(env.sizeBytes name)).toNat) 0, none, s.current,
            s.current + recordLen name dims⟩ h1 rfl rfl
        have hlen : ((List.replicate ((arrayLenP (s.base.getD 0) dims *
            ↑(env.sizeBytes name)).toNat) 0).length : Int) =
            arrayLenP (s.base.getD 0) dims * ↑(env.sizeBytes name) := by
          rw [List.length_replicate]
          exact Int.toNat_of_nonneg hbytes
        simp only at happ ⊢
        rw [hlen] at happ
        exact happ
      · unfold baseOKB
        simp only []
        rw [Bool.and_eq_true, List.all_append]
        refine ⟨?_, ?_⟩
        · rcases hb01 with hb | hb <;> simp [hb]
        · rw [Bool.and_eq_true]
          refine ⟨hentriesOK, ?_⟩
          simp only [List.all_cons, List.all_nil, Bool.and_true]
          unfold entryOKB
          rw [Bool.and_eq_true]
          refine ⟨?_, ?_⟩
          · simp only [List.length_replicate, beq_iff_eq]
            exact Int.toNat_of_nonneg hbytes
          · rw [List.all_eq_true]
            intro d hd
            simp only [decide_eq_true_eq]
            exact (hball d hd).2
      · apply nodupNamesB_append_one s.entries _ h3
        intro f hf
        have := List.find?_eq_none.mp hmiss f hf
        simpa using this

theorem entryOKB_shift (env : Env) (b d : Int) (f : ArrayEntry) :
    entryOKB env b (shiftEntry d f) = entryOKB env b f := rfl

theorem invB_erase (env : Env) (s : ArraysState) (name : String)
    (h : invB env s = true) : invB env (eraseOp env s name).1 = true := by
  cases hf : findEntry s name with
  | none =>
      unfold eraseOp
      rw [hf]
      exact h
  | some e =>
      obtain ⟨hmem, hename⟩ := findEntry_mem s name e hf
      rw [invB_iff] at h
      obtain ⟨h1, h2, h3⟩ := h
      have hbase : ∃ b, s.base = some b := by
        cases hb : s.base with
        | some b => exact ⟨b, rfl⟩
        | none =>
            unfold baseOKB at h2
            rw [hb] at h2
            have : s.entries = [] := List.isEmpty_iff.mp h2
            rw [this] at hmem
            cases hmem
      obtain ⟨b, hb⟩ := hbase
      have hbv : baseVal s = b := by simp [baseVal, hb]
      have hOK : entryOKB env b e = true := by
        unfold baseOKB at h2
        rw [hb] at h2
        simp only [Bool.and_eq_true] at h2
        exact List.all_eq_true.mp h2.2 e hmem
      have hb01 : (b == 0 || b == 1) = true := by
        unfold baseOKB at h2
        rw [hb] at h2
        simp only [Bool.and_eq_true] at h2
        exact h2.1
      have hbuflen : (e.buf.length : Int) =
          arrayLenP b e.dims * ↑(env.sizeBytes e.name) := by
        unfold entryOKB at hOK
        simp only [Bool.and_eq_true, beq_iff_eq] at hOK
        exact hOK.1
      have hfreed : arrayLenP (baseVal s) e.dims * ↑(env.sizeBytes name) +
          recordLen name e.dims = spanLen e := by
        rw [hbv, ← hename]
        unfold spanLen
        rw [hbuflen]
        ring
      obtain ⟨l₁, l₂, heq, hc1, hc2⟩ := chainedB_split s.entries 0 s.current e h1 hmem
      have hnodup := h3
      rw [heq] at hnodup
      obtain ⟨hl₁, hl₂, hnodup'⟩ := nodupNamesB_split l₁ l₂ e hnodup
      have herase : s.entries.eraseP (fun f => f.name == name) = l₁ ++ l₂ := by
        rw [heq, List.eraseP_append_right]
        · rw [List.eraseP_cons_of_pos (by simp [hename])]
        · intro f hfl
          simp only [beq_iff_eq]
          rw [← hename]
          exact hl₁ f hfl
      have hl₁lt : ∀ f ∈ l₁, f.namePtr < e.namePtr := by
        intro f hfl
        have hm := chainedB_mem l₁ 0 e.namePtr f hc1 hfl
        have hr := recordLen_pos f.name f.dims
        have hn : (0 : Int) ≤ ↑f.buf.length := Int.natCast_nonneg _
        unfold spanLen at hm
        omega
      have hl₂gt : ∀ f ∈ l₂, e.namePtr < f.namePtr := by
        intro f hfl
        have hm := chainedB_mem l₂ (e.namePtr + spanLen e) s.current f hc2 hfl
        have hr := recordLen_pos e.name e.dims
        have hn : (0 : Int) ≤ ↑e.buf.length := Int.natCast_nonneg _
        unfold spanLen at hm
        omega
      have hmap : (l₁ ++ l₂).map (condShift e.namePtr (spanLen e)) =
          l₁ ++ l₂.map (shiftEntry (spanLen e)) := by
        rw [List.map_append]
        congr 1
        · have hcg : ∀ f ∈ l₁, condShift e.namePtr (spanLen e) f = id f := by
            intro f hfl
            unfold condShift
            rw [if_neg (by have := hl₁lt f hfl; omega)]
            rfl
          rw [List.map_congr_left hcg, List.map_id]
        · apply List.map_congr_left
          intro f hfl
          unfold condShift shiftEntry
          rw [if_pos (hl₂gt f hfl)]
      unfold eraseOp
      rw [hf]
      rw [invB_iff]
      simp only [herase, hfreed, hmap]
      refine ⟨?_, ?_, ?_⟩
      · have hshift := chainedB_shift l₂ (e.namePtr + spanLen e) s.current
          (spanLen e) hc2
        have hstart : e.namePtr + spanLen e - spanLen e = e.namePtr := by ring
        rw [hstart] at hshift
        exact chainedB_glue l₁ _ 0 e.namePtr _ hc1 hshift
      · unfold baseOKB at h2 ⊢
        simp only [hb] at h2 ⊢
        rw [Bool.and_eq_true] at h2 ⊢
        refine ⟨h2.1, ?_⟩
        rw [List.all_append, Bool.and_eq_true]
        have hall := h2.2
        rw [heq, List.all_append, Bool.and_eq_true] at hall
        refine ⟨hall.1, ?_⟩
        rw [List.all_eq_true]
        intro f hfl
        obtain ⟨g, hg, hgf⟩ := List.mem_map.mp hfl
        rw [← hgf, entryOKB_shift]
        have := hall.2
        rw [List.all_cons, Bool.and_eq_true] at this
        exact List.all_eq_true.mp this.2 g hg
      · have hnames : (l₁ ++ l₂.map (shiftEntry (spanLen e))).map (fun f => f.name) =
            (l₁ ++ l₂).map (fun f => f.name) := by
          simp only [List.map_append, List.map_map]
          rfl
        rw [nodupNamesB_names_congr _ _ hnames]
        exact hnodup'

theorem reachable_inv (env : Env) (s : ArraysState) (h : Reachable env s) :
    invB env s = true := by
  induction h with
  | init => rfl
  | dim s name dims hr ih => exact invB_dim env s name dims ih
  | erase s name hr ih => exact invB_erase env s name ih
  | clear s hr ih => exact invB_clear env s ih

/-! ### Claim C3 -/

/-- C3: in every state reachable by declare/erase/clear, each descriptor's
data address is exactly `1 + max(3, len(name)) + 3 + 2*ndims` past its
header address, the header/data spans of distinct descriptors are pairwise
disjoint, and the header and data ranges together tile the arena without
gaps from 0 up to `current`. -/
theorem c3_arena_tiling (env : Env) (s : ArraysState) (h : Reachable env s) :
    (∀ e ∈ s.entries, e.arrayPtr = e.namePtr + recordLen e.name e.dims) ∧
    s.entries.Pairwise (fun e f =>
      e.arrayPtr + (e.buf.length : Int) ≤ f.namePtr ∨
      f.arrayPtr + (f.buf.length : Int) ≤ e.namePtr) ∧
    (∀ a : Int, (0 ≤ a ∧ a < s.current) ↔ ∃ e ∈ s.entries,
      (e.namePtr ≤ a ∧ a < e.arrayPtr) ∨
      (e.arrayPtr ≤ a ∧ a < e.arrayPtr + (e.buf.length : Int))) := by
  have hi := reachable_inv env s h
  rw [invB_iff] at hi
  obtain ⟨h1, _, _⟩ := hi
  refine ⟨fun e he => (chainedB_mem _ _ _ e h1 he).2.1, ?_, ?_⟩
  · exact (chainedB_pairwise _ _ _ h1).imp (fun hx => Or.inl hx)
  · intro a
    have hcov := chainedB_cover _ 0 _ h1 a
    constructor
    · intro ha
      obtain ⟨e, he, he1, he2⟩ := hcov.mp ha
      by_cases hc : a < e.arrayPtr
      · exact ⟨e, he, Or.inl ⟨he1, hc⟩⟩
      · exact ⟨e, he, Or.inr ⟨by omega, he2⟩⟩
    · rintro ⟨e, he, hcase⟩
      have harr := (chainedB_mem _ _ _ e h1 he).2.1
      have hrl := recordLen_pos e.name e.dims
      have hbn : (0 : Int) ≤ ↑e.buf.length := Int.natCast_nonneg _
      apply hcov.mpr
      rcases hcase with ⟨x1, x2⟩ | ⟨x1, x2⟩
      · exact ⟨e, he, x1, by omega⟩
      · exact ⟨e, he, by omega, x2⟩

theorem c3_witness :
    (∀ e ∈ (dimOp envRel initState "A%" [0]).1.entries,
        e.arrayPtr = e.namePtr + recordLen e.name e.dims) ∧
    (dimOp envRel initState "A%" [0]).1.entries.Pairwise (fun e f =>
      e.arrayPtr + (e.buf.length : Int) ≤ f.namePtr ∨
      f.arrayPtr + (f.buf.length : Int) ≤ e.namePtr) ∧
    (∀ a : Int, (0 ≤ a ∧ a < (dimOp envRel initState "A%" [0]).1.current) ↔
      ∃ e ∈ (dimOp envRel initState "A%" [0]).1.entries,
        (e.namePtr ≤ a ∧ a < e.arrayPtr) ∨
        (e.arrayPtr ≤ a ∧ a < e.arrayPtr + (e.buf.length : Int))) :=
  c3_arena_tiling envRel (dimOp envRel initState "A%" [0]).1
    (Reachable.dim initState "A%" [0] Reachable.init)

/-! ### Claim C6 -/

theorem gmScan_append (addr : Int) (l₁ l₂ : List ArrayEntry)
    (acc : Int × Int × Option String) :
    gmScan addr (l₁ ++ l₂) acc = gmScan addr l₂ (gmScan addr l₁ acc) := by
  induction l₁ generalizing acc with
  | nil => rfl
  | cons e rest ih =>
      simp only [List.cons_append, gmScan]
      exact ih _

theorem gmScan_skip (addr : Int) (l : List ArrayEntry)
    (acc : Int × Int × Option String) (h : ∀ f ∈ l, ¬ f.namePtr ≤ addr) :
    gmScan addr l acc = acc := by
  induction l generalizing acc with
  | nil => rfl
  | cons e rest ih =>
      unfold gmScan
      rw [if_neg (fun hc => h e (List.mem_cons_self _ _) hc.1)]
      exact ih _ (fun f hf => h f (List.mem_cons_of_mem _ hf))

theorem gmScan_acc_lt (addr t : Int) (l : List ArrayEntry)
    (acc : Int × Int × Option String)
    (hl : ∀ f ∈ l, f.namePtr < t) (hacc : acc.1 < t) :
    (gmScan addr l acc).1 < t := by
  induction l generalizing acc with
  | nil => exact hacc
  | cons e rest ih =>
      unfold gmScan
      by_cases hc : e.namePtr ≤ addr ∧ e.namePtr > acc.1
      · rw [if_pos hc]
        exact ih _ (fun f hf => hl f (List.mem_cons_of_mem _ hf))
          (hl e (List.mem_cons_self _ _))
      · rw [if_neg hc]
        exact ih _ (fun f hf => hl f (List.mem_cons_of_mem _ hf)) hacc

/-- The `get_memory` ownership scan settles on an entry whose header
address is at most the queried address when everything before it in the
table sits strictly lower and everything after it is above the address. -/
theorem gmScan_finds (addr : Int) (l₁ l₂ : List ArrayEntry) (e : ArrayEntry)
    (acc : Int × Int × Option String)
    (hacc : acc.1 < e.namePtr)
    (hl₁ : ∀ f ∈ l₁, f.namePtr < e.namePtr)
    (hle : e.namePtr ≤ addr)
    (hl₂ : ∀ f ∈ l₂, ¬ f.namePtr ≤ addr) :
    gmScan addr (l₁ ++ e :: l₂) acc = (e.namePtr, e.arrayPtr, some e.name) := by
  rw [gmScan_append]
  have h1 : (gmScan addr l₁ acc).1 < e.namePtr :=
    gmScan_acc_lt addr e.namePtr l₁ acc hl₁ hacc
  unfold gmScan
  rw [if_pos ⟨hle, h1⟩]
  exact gmScan_skip addr l₂ _ hl₂

/-- C6 as stated is false: with a nonzero scalar-area base and a second
array present, the ownership scan resolves a header-range address of the
first array to the wrong descriptor.  Offset 4 of `A%`'s header range is
the first byte of its reconstructed record (value 5), but `get_memory`
returns a name byte (0) of `B%`. -/
theorem c6_counterexample :
    ¬ (getMemoryOp envAbs stAB (100 + 0 + 4) =
        ↑((headerRecordRep envAbs stAB "A%").getD
          ((4 : Int) - (↑(max 3 "A%".length) + 1)).toNat 0)) := by
  decide

/-- C6 amended: provided the array area starts at absolute address 0 (so
that the scan's arena-relative header offsets and the absolute query agree)
and the table satisfies the arena invariant, a query at offset `o` of a
declared array's header range with `o ≥ max(3, len(name)) + 1` returns byte
`o - (max(3, len(name)) + 1)` of the record freshly packed from the current
state: a little-endian u16 holding data byte size `+ 1 + 2*ndims`, a u8
holding `ndims`, then one little-endian u16 per dimension holding
`dimension + 1 - base`. -/
theorem c6_header_byte (env : Env) (s : ArraysState) (e : ArrayEntry) (o : Int)
    (hvc : env.varCurrent = 0)
    (hinv : invB env s = true)
    (he : e ∈ s.entries)
    (ho1 : (↑(max 3 e.name.length) : Int) + 1 ≤ o)
    (ho2 : o < recordLen e.name e.dims) :
    getMemoryOp env s (e.namePtr + o) =
      ↑((headerRecordRep env s e.name).getD
        (o - (↑(max 3 e.name.length) + 1)).toNat 0) := by
  rw [invB_iff] at hinv
  obtain ⟨h1, _, _⟩ := hinv
  obtain ⟨l₁, l₂, heq, hc1, hc2⟩ := chainedB_split s.entries 0 s.current e h1 he
  have hmem := chainedB_mem s.entries 0 s.current e h1 he
  have hrl := recordLen_pos e.name e.dims
  have hl₁lt : ∀ f ∈ l₁, f.namePtr < e.namePtr := by
    intro f hfl
    have hm := chainedB_mem l₁ 0 e.namePtr f hc1 hfl
    have hr := recordLen_pos f.name f.dims
    have hn : (0 : Int) ≤ ↑f.buf.length := Int.natCast_nonneg _
    unfold spanLen at hm
    omega
  have hl₂gt : ∀ f ∈ l₂, ¬ f.namePtr ≤ e.namePtr + o := by
    intro f hfl
    have hm := chainedB_mem l₂ (e.namePtr + spanLen e) s.current f hc2 hfl
    have hbn : (0 : Int) ≤ ↑e.buf.length := Int.natCast_nonneg _
    unfold spanLen at hm
    omega
  have hscan : gmScan (e.namePtr + o) s.entries (-1, -1, none) =
      (e.namePtr, e.arrayPtr, some e.name) := by
    rw [heq]
    exact gmScan_finds (e.namePtr + o) l₁ l₂ e (-1, -1, none)
      (by have := hmem.1; norm_num; omega) hl₁lt (by omega) hl₂gt
  unfold getMemoryOp
  rw [hscan, hvc]
  dsimp only
  have hnotdata : ¬ (0 + e.arrayPtr ≤ e.namePtr + o) := by
    have := hmem.2.1
    omega
  rw [if_neg hnotdata]
  have hnotname : ¬ (e.namePtr + o - e.namePtr - 0 < ↑(max 3 e.name.length) + 1) := by
    omega
  rw [if_neg hnotname]
  have hoff : e.namePtr + o - e.namePtr - 0 - (↑(max 3 e.name.length) + 1) =
      o - (↑(max 3 e.name.length) + 1) := by ring
  rw [hoff]

theorem c6_witness :
    envRel.varCurrent = 0 ∧
    invB envRel stAB = true ∧
    (⟨"A%", [0], [7, 7], none, 0, 9⟩ : ArrayEntry) ∈ stAB.entries ∧
    getMemoryOp envRel stAB (0 + 4) =
      ↑((headerRecordRep envRel stAB "A%").getD
        ((4 : Int) - (↑(max 3 "A%".length) + 1)).toNat 0) :=
  ⟨rfl, by decide, by decide,
    c6_header_byte envRel stAB ⟨"A%", [0], [7, 7], none, 0, 9⟩ 4
      rfl (by decide) (by decide) (by decide) (by decide)⟩

end PcBasic
